import Mathlib

/-
Verification of the react-testgen CLI (src/index.ts).

The tool is a single-pass file-system utility: it parses CLI flags, walks a
directory tree collecting eligible `.tsx` component files, infers each file's
export shape with four ordered regex attempts (plus a fallback), renders a
fixed test template, and writes the template to `<base>.test.tsx` beside the
source file unless the test already exists.

Shallow embedding conventions:
  * Paths are lists of path components (`List String`); joining components
    with "/" recovers the posix string form.  The tool only ever joins a
    directory with an entry name and takes dirname/basename, so this is a
    faithful component-level model of the `path` calls in the source.
  * The file system is a tree of entries.  A directory carries a `readable`
    flag modelling whether `fs.readdir` succeeds on it (the source catches
    readdir errors and returns; see `walkList`).
  * Asynchronous code is sequential in the source (every call is awaited
    before the next), so it is embedded as plain sequential functions;
    fallible fs calls return `Option`.
  * JS regexes are embedded as explicit matchers.  All four patterns used by
    the source alternate disjoint character classes (whitespace, word
    characters, and the literals `=` `(`), so greedy matching never needs to
    backtrack and maximal-munch scanning from the leftmost position is
    exactly the JS `String.match` semantics for these patterns.
-/

-- ---------------- Characters and strings ----------------

/-- The character set matched by `\s` in JS regexes (ECMAScript WhiteSpace
and LineTerminator productions). -/
def isJsSpace (c : Char) : Bool :=
  c == ' ' || c == '\t' || c == '\n' || c == '\r' ||
  c.toNat == 0x0b || c.toNat == 0x0c ||
  c.toNat == 0xa0 || c.toNat == 0x1680 ||
  (0x2000 ≤ c.toNat && c.toNat ≤ 0x200a) ||
  c.toNat == 0x2028 || c.toNat == 0x2029 || c.toNat == 0x202f ||
  c.toNat == 0x205f || c.toNat == 0x3000 || c.toNat == 0xfeff

/-- The character class `[A-Za-z0-9_]` used by all four capture groups. -/
def isWordChar (c : Char) : Bool :=
  ('A' ≤ c && c ≤ 'Z') || ('a' ≤ c && c ≤ 'z') || ('0' ≤ c && c ≤ '9') || c == '_'

/-- `charsLeadWith pat cs` is true when `cs` begins with `pat`. -/
def charsLeadWith : List Char → List Char → Bool
  | [], _ => true
  | _ :: _, [] => false
  | p :: ps, c :: cs => p == c && charsLeadWith ps cs

/-- JS `String.prototype.startsWith`. -/
def strStartsWith (s pat : String) : Bool :=
  charsLeadWith pat.toList s.toList

/-- JS `String.prototype.endsWith`. -/
def strEndsWith (s pat : String) : Bool :=
  charsLeadWith pat.toList.reverse s.toList.reverse

/-- Node `path.extname` restricted to a single path component (no slashes):
the substring from the last `.`; empty when there is no dot, when the only
dot is the leading character (hidden files), or for the special name `..`. -/
def extname (name : String) : String :=
  if name == ".." then ""
  else
    let cs := name.toList
    let afterRev := cs.reverse.takeWhile (fun c => c != '.')
    if afterRev.length == cs.length then ""
    else if afterRev.length + 1 == cs.length then ""
    else String.mk ('.' :: afterRev.reverse)

/-- Node `path.basename(p, ext)` applied to an already-extracted final
component: strips `ext` when it is a proper suffix of the name. -/
def basenameStrip (name ext : String) : String :=
  if strEndsWith name ext && name != ext then name.dropRight ext.length else name

/-- JS `baseName.charAt(0).toUpperCase() + baseName.slice(1)` (the empty
string stays empty; the fallback in `inferExportInfo` handles that case). -/
def capitalizeJs (s : String) : String :=
  match s.toList with
  | [] => ""
  | c :: cs => String.mk (c.toUpper :: cs)

/-- The `.replace(/\\/g, '/')` step of the relative-import computation. -/
def replaceBackslashes (s : String) : String :=
  String.mk (s.toList.map (fun c => if c == '\\' then '/' else c))

/-- The `.replace(/\.tsx?$/, '')` step: strip a final `.tsx`, else a final
`.ts` (the regex is anchored at the end; `x?` is greedy). -/
def stripTsSuffix (s : String) : String :=
  if strEndsWith s ".tsx" then s.dropRight 4
  else if strEndsWith s ".ts" then s.dropRight 3
  else s

-- ---------------- Paths as component lists ----------------

/-- Node `path.basename` on a component path. -/
def pathBasename (p : List String) : String :=
  p.getLast?.getD ""

/-- Node `path.dirname` on a component path. -/
def pathDirname (p : List String) : List String :=
  p.dropLast

/-- Node `path.relative` on resolved component paths: drop the common
path, then go up once per remaining source component. -/
def pathRelative : List String → List String → List String
  | [], ts => ts
  | fs, [] => fs.map (fun _ => "..")
  | f :: fs, t :: ts =>
    if f == t then pathRelative fs ts
    else (f :: fs).map (fun _ => "..") ++ (t :: ts)

-- ---------------- Config ----------------

def COMPONENT_EXTENSIONS : List String := [".tsx"]

structure ComponentExportInfo where
  importName : String
  importLine : String
  jsxTag : String
deriving DecidableEq

structure CliOptions where
  rootDir : String
  dryRun : Bool
  force : Bool
deriving DecidableEq

-- ---------------- CLI args ----------------

/-- `parseArgs` over the token list `process.argv.slice(2)`. -/
def parseArgs (args : List String) : CliOptions :=
  args.foldl
    (fun opts arg =>
      if arg == "--dry-run" then { opts with dryRun := true }
      else if arg == "--force" then { opts with force := true }
      else if !(strStartsWith arg "-") then { opts with rootDir := arg }
      else opts)
    { rootDir := "src", dryRun := false, force := false }

-- ---------------- Output path derivation ----------------

/-- `getTestPath`: same directory, extension replaced by `.test.tsx`. -/
def getTestPath (filePath : List String) : List String :=
  pathDirname filePath ++
    [basenameStrip (pathBasename filePath) (extname (pathBasename filePath)) ++ ".test.tsx"]

-- ---------------- Regex matchers ----------------

/-- Match a literal character sequence, returning the remaining input. -/
def matchLit : List Char → List Char → Option (List Char)
  | [], cs => some cs
  | _ :: _, [] => none
  | l :: ls, c :: cs => if l == c then matchLit ls cs else none

/-- Match `\s+` (one or more JS whitespace characters), maximal munch. -/
def spaces1 (cs : List Char) : Option (List Char) :=
  match cs with
  | [] => none
  | c :: _ => if isJsSpace c then some (cs.dropWhile isJsSpace) else none

/-- Match the capture group `([A-Za-z0-9_]+)`, maximal munch. -/
def word1 (cs : List Char) : Option (String × List Char) :=
  let taken := cs.takeWhile isWordChar
  if taken.isEmpty then none
  else some (String.mk taken, cs.dropWhile isWordChar)

/-- Match a chain of literal keywords, each followed by `\s+`. -/
def matchKwAt : List String → List Char → Option (List Char)
  | [], cs => some cs
  | k :: ks, cs =>
    match matchLit k.toList cs with
    | none => none
    | some cs1 =>
      match spaces1 cs1 with
      | none => none
      | some cs2 => matchKwAt ks cs2

/-- Match `kw1\s+kw2\s+...\s+([A-Za-z0-9_]+)` at the current position. -/
def matchRuleAt (kws : List String) (cs : List Char) : Option String :=
  match matchKwAt kws cs with
  | none => none
  | some cs1 =>
    match word1 cs1 with
    | none => none
    | some (name, _) => some name

/-- Match `export\s+const\s+([A-Za-z0-9_]+)\s*=\s*\(` at the current
position. -/
def matchConstAt (cs : List Char) : Option String :=
  match matchKwAt ["export", "const"] cs with
  | none => none
  | some cs1 =>
    match word1 cs1 with
    | none => none
    | some (name, cs2) =>
      match matchLit ['='] (cs2.dropWhile isJsSpace) with
      | none => none
      | some cs3 =>
        match matchLit ['('] (cs3.dropWhile isJsSpace) with
        | none => none
        | some _ => some name

/-- Leftmost-match scan: try the pattern at each position in turn, exactly
as JS `String.prototype.match` does for a non-global regex. -/
def firstMatch (attempt : List Char → Option String) : List Char → Option String
  | [] => none
  | c :: cs =>
    match attempt (c :: cs) with
    | some r => some r
    | none => firstMatch attempt cs

/-- Rule 1: `/export\s+default\s+function\s+([A-Za-z0-9_]+)/`. -/
def matchDefaultFunction (s : String) : Option String :=
  firstMatch (matchRuleAt ["export", "default", "function"]) s.toList

/-- Rule 2: `/export\s+default\s+([A-Za-z0-9_]+)/`. -/
def matchBareDefault (s : String) : Option String :=
  firstMatch (matchRuleAt ["export", "default"]) s.toList

/-- Rule 3: `/export\s+function\s+([A-Za-z0-9_]+)/`. -/
def matchNamedFunction (s : String) : Option String :=
  firstMatch (matchRuleAt ["export", "function"]) s.toList

/-- Rule 4: `/export\s+const\s+([A-Za-z0-9_]+)\s*=\s*\(/`. -/
def matchConstArrow (s : String) : Option String :=
  firstMatch matchConstAt s.toList

-- ---------------- Export introspection ----------------

/-- The `relativeImport` computed at the top of `inferExportInfo`:
`path.relative(path.dirname(testPath), filePath)` with backslashes turned
into slashes and a trailing `.tsx`/`.ts` stripped. -/
def relativeImportOf (filePath : List String) : String :=
  stripTsSuffix (replaceBackslashes
    (String.intercalate "/" (pathRelative (pathDirname (getTestPath filePath)) filePath)))

/-- `inferExportInfo`, with the `fs.readFile` result passed in as `source`
(the read itself is performed by the orchestrator model, `processOne`). -/
def inferExportInfo (filePath : List String) (source : String) : ComponentExportInfo :=
  let baseName := basenameStrip (pathBasename filePath) (extname (pathBasename filePath))
  let relativeImport := relativeImportOf filePath
  match matchDefaultFunction source with
  | some name =>
    { importName := name,
      importLine := "import " ++ name ++ " from \"" ++ relativeImport ++ "\";",
      jsxTag := "<" ++ name ++ " />" }
  | none =>
  match matchBareDefault source with
  | some name =>
    { importName := name,
      importLine := "import " ++ name ++ " from \"" ++ relativeImport ++ "\";",
      jsxTag := "<" ++ name ++ " />" }
  | none =>
  match matchNamedFunction source with
  | some name =>
    { importName := name,
      importLine := "import \x7b " ++ name ++ " \x7d from \"" ++ relativeImport ++ "\";",
      jsxTag := "<" ++ name ++ " />" }
  | none =>
  match matchConstArrow source with
  | some name =>
    { importName := name,
      importLine := "import \x7b " ++ name ++ " \x7d from \"" ++ relativeImport ++ "\";",
      jsxTag := "<" ++ name ++ " />" }
  | none =>
    let fallbackName :=
      if capitalizeJs baseName == "" then "ComponentUnderTest" else capitalizeJs baseName
    { importName := fallbackName,
      importLine := "import " ++ fallbackName ++ " from \"" ++ relativeImport ++ "\";",
      jsxTag := "<" ++ fallbackName ++ " />" }

-- ---------------- Test template ----------------

/-- `createTestTemplate`: the fixed template-literal of the source. -/
def createTestTemplate (filePath : List String) (exportInfo : ComponentExportInfo) : String :=
  let componentLabel := basenameStrip (pathBasename filePath) (extname (pathBasename filePath))
  "import \x7b render, screen \x7d from \"@testing-library/react\";\n" ++
  "import \"@testing-library/jest-dom\";\n" ++
  exportInfo.importLine ++ "\n" ++
  "\n" ++
  "describe(\"" ++ componentLabel ++ "\", () => \x7b\n" ++
  "  it(\"renders without crashing\", () => \x7b\n" ++
  "    render(" ++ exportInfo.jsxTag ++ ");\n" ++
  "    // TODO: replace this with meaningful assertions\n" ++
  "    // Example:\n" ++
  "    // expect(screen.getByText(/some text/i)).toBeInTheDocument();\n" ++
  "  \x7d);\n" ++
  "\x7d);\n"

-- ---------------- File-system model ----------------

mutual
/-- A file-system entry: a file with contents, or a directory with entries.
`readable` models whether `fs.readdir` succeeds on the directory (the
source wraps `readdir` in try/catch and returns on failure). -/
inductive Entry where
  | file (name content : String)
  | dir (name : String) (readable : Bool) (entries : EntryList)
/-- A directory listing, in `readdir` order. -/
inductive EntryList where
  | nil
  | cons (e : Entry) (rest : EntryList)
end

def entryName : Entry → String
  | .file n _ => n
  | .dir n _ _ => n

/-- Convenience constructor for concrete directory listings. -/
def entryList : List Entry → EntryList
  | [] => EntryList.nil
  | e :: es => EntryList.cons e (entryList es)

/-- The fixed set of directory names never descended into. -/
def excludedDirs : List String := ["node_modules", "dist", "build", ".git"]

/-- The body of `walk` in `findComponentFiles`: iterate over the entries of
the directory at path `pre`, recursing into non-excluded readable
subdirectories and collecting eligible component files in entry order. -/
def walkList (pre : List String) : EntryList → List (List String)
  | EntryList.nil => []
  | EntryList.cons (Entry.file name _) rest =>
    (if strEndsWith name ".test.tsx" || strEndsWith name ".stories.tsx"
        || strStartsWith name "." then
      []
    else if COMPONENT_EXTENSIONS.contains (extname name) then
      [pre ++ [name]]
    else []) ++ walkList pre rest
  | EntryList.cons (Entry.dir name readable subs) rest =>
    (if excludedDirs.contains name then []
     else if readable then walkList (pre ++ [name]) subs
     else []) ++ walkList pre rest

/-- `findComponentFiles(rootDir)`: `walk` applied to the root directory
(whose own name is never checked against the exclusion set).  Paths are
returned relative to the root.  When `readdir` fails on the root itself
(missing or permission-denied) the walk yields no results. -/
def findComponentFiles (rootReadable : Bool) (root : EntryList) : List (List String) :=
  if rootReadable then walkList [] root else []

/-- `fs.readFile(p, 'utf8')` on the entry tree: `none` models a thrown
error (missing entry, missing directory, or reading a directory). -/
def readInEntries : EntryList → List String → Option String
  | EntryList.nil, _ => none
  | _, [] => none
  | EntryList.cons (Entry.file m c) rest, [n] =>
    if m == n then some c else readInEntries rest [n]
  | EntryList.cons (Entry.dir m _ _) rest, [n] =>
    if m == n then none else readInEntries rest [n]
  | EntryList.cons (Entry.file _ _) rest, p@(_ :: _ :: _) => readInEntries rest p
  | EntryList.cons (Entry.dir m _ subs) rest, p@(n :: ps@(_ :: _)) =>
    if m == n then readInEntries subs ps else readInEntries rest p

/-- `fs.access(p)` on the entry tree: true when some entry (file or
directory) exists at the path. -/
def existsInEntries : EntryList → List String → Bool
  | EntryList.nil, _ => false
  | _, [] => false
  | EntryList.cons e rest, [n] => entryName e == n || existsInEntries rest [n]
  | EntryList.cons (Entry.file _ _) rest, p@(_ :: _ :: _) => existsInEntries rest p
  | EntryList.cons (Entry.dir m _ subs) rest, p@(n :: ps@(_ :: _)) =>
    (m == n && existsInEntries subs ps) || existsInEntries rest p

/-- `fs.writeFile(p, c)` on the entry tree: replace the contents of an
existing file at `p`, or create the file in its (existing) parent
directory.  `none` models a thrown error: empty path, missing parent
directory, a file where a directory is needed, or a directory at `p`. -/
def writeInEntries : EntryList → List String → String → Option EntryList
  | _, [], _ => none
  | EntryList.nil, [n], c => some (EntryList.cons (Entry.file n c) EntryList.nil)
  | EntryList.nil, _ :: _ :: _, _ => none
  | EntryList.cons (Entry.file m c0) rest, [n], c =>
    if m == n then some (EntryList.cons (Entry.file n c) rest)
    else (writeInEntries rest [n] c).map (fun r => EntryList.cons (Entry.file m c0) r)
  | EntryList.cons (Entry.dir m r subs) rest, [n], c =>
    if m == n then none
    else (writeInEntries rest [n] c).map (fun r2 => EntryList.cons (Entry.dir m r subs) r2)
  | EntryList.cons (Entry.file m c0) rest, p@(n :: _ :: _), c =>
    if m == n then none
    else (writeInEntries rest p c).map (fun r => EntryList.cons (Entry.file m c0) r)
  | EntryList.cons (Entry.dir m r subs) rest, p@(n :: ps@(_ :: _)), c =>
    if m == n then (writeInEntries subs ps c).map (fun s => EntryList.cons (Entry.dir m r s) rest)
    else (writeInEntries rest p c).map (fun r2 => EntryList.cons (Entry.dir m r subs) r2)

-- ---------------- Main orchestration ----------------

/-- The per-file body of the loop in `main`: check whether the derived test
path exists, skip when it exists and `force` is unset, otherwise read the
source file, infer its export info, render the template, and (unless
`dryRun`) write it.  `none` models an uncaught exception aborting the
run. -/
def processOne (force dryRun : Bool) (tree : EntryList) (file : List String) :
    Option EntryList :=
  let testPath := getTestPath file
  let testExists := existsInEntries tree testPath
  if testExists && !force then some tree
  else
    match readInEntries tree file with
    | none => none
    | some source =>
      let exportInfo := inferExportInfo file source
      let template := createTestTemplate file exportInfo
      if dryRun then some tree
      else writeInEntries tree testPath template

/-- The `for (const file of files)` loop of `main`, one file fully
processed before the next. -/
def runFiles (force dryRun : Bool) : EntryList → List (List String) → Option EntryList
  | tree, [] => some tree
  | tree, f :: fs =>
    match processOne force dryRun tree f with
    | none => none
    | some tree1 => runFiles force dryRun tree1 fs

/-- `main` for one resolved root: discover component files under the root,
then run the per-file loop.  (Argument parsing and `path.resolve` of the
root are modelled by the `force`/`dryRun`/`rootReadable` parameters.) -/
def runMain (force dryRun rootReadable : Bool) (tree : EntryList) : Option EntryList :=
  runFiles force dryRun tree (findComponentFiles rootReadable tree)

-- ---------------- Helper lemmas ----------------

lemma charsLeadWith_self_append (l m : List Char) : charsLeadWith l (l ++ m) = true := by
  induction l with
  | nil => rfl
  | cons c cs ih => simp [charsLeadWith, ih]

lemma toList_append (a b : String) : (a ++ b).toList = a.toList ++ b.toList := rfl

lemma strEndsWith_append (b pat : String) : strEndsWith (b ++ pat) pat = true := by
  unfold strEndsWith
  rw [toList_append, List.reverse_append]
  exact charsLeadWith_self_append _ _

lemma capitalizeJs_eq_empty_iff (s : String) : capitalizeJs s = "" ↔ s = "" := by
  cases s with
  | mk data =>
    cases data with
    | nil => simp [capitalizeJs]
    | cons c cs =>
      simp [capitalizeJs, String.ext_iff]

lemma inferExportInfo_no_match (filePath : List String) (source : String)
    (h1 : matchDefaultFunction source = none) (h2 : matchBareDefault source = none)
    (h3 : matchNamedFunction source = none) (h4 : matchConstArrow source = none) :
    inferExportInfo filePath source =
      (let b := basenameStrip (pathBasename filePath) (extname (pathBasename filePath))
       let nm := if b = "" then "ComponentUnderTest" else capitalizeJs b
       { importName := nm,
         importLine := "import " ++ nm ++ " from \"" ++ relativeImportOf filePath ++ "\";",
         jsxTag := "<" ++ nm ++ " />" }) := by
  unfold inferExportInfo
  rw [h1, h2, h3, h4]
  by_cases hb : basenameStrip (pathBasename filePath) (extname (pathBasename filePath)) = ""
  · simp only [hb]
    rfl
  · have hcap : ¬(capitalizeJs
        (basenameStrip (pathBasename filePath) (extname (pathBasename filePath))) = "") :=
      fun hx => hb ((capitalizeJs_eq_empty_iff _).mp hx)
    simp only [beq_iff_eq, if_neg hcap, if_neg hb]

lemma getTestPath_getLast (f : List String) :
    (getTestPath f).getLast? =
      some (basenameStrip (pathBasename f) (extname (pathBasename f)) ++ ".test.tsx") := by
  unfold getTestPath
  exact List.getLast?_concat _

lemma getTestPath_last_is_test (f : List String) (nm : String)
    (h : (getTestPath f).getLast? = some nm) : strEndsWith nm ".test.tsx" = true := by
  rw [getTestPath_getLast] at h
  cases h
  exact strEndsWith_append _ _

-- ---------------- Claim theorems: inference and parsing ----------------

/-- C1 (code bug): for a fallback file `src/widget.tsx` the code does yield
importName `Widget`, but the produced import line is
`import Widget from "widget";` — `path.relative` never prepends `./`, so
the import specifier is NOT the `./`-prefixed relative path the claim (and
the spec scenario for `Button.tsx`) require. -/
theorem C1_import_line_not_dot_slash_prefixed :
    (inferExportInfo ["src", "widget.tsx"] "const x = 1;").importName = "Widget" ∧
    (inferExportInfo ["src", "widget.tsx"] "const x = 1;").importLine
      = "import Widget from \"widget\";" ∧
    (inferExportInfo ["src", "widget.tsx"] "const x = 1;").importLine
      ≠ "import Widget from \"./widget\";" ∧
    (inferExportInfo ["src", "Button.tsx"]
        "export default function Button() \x7b return null; \x7d").importLine
      = "import Button from \"Button\";" ∧
    (inferExportInfo ["src", "Button.tsx"]
        "export default function Button() \x7b return null; \x7d").importLine
      ≠ "import Button from \"./Button\";" := by
  refine ⟨rfl, rfl, ?_, rfl, ?_⟩ <;> decide

/-- C2 (code bug): `parseArgs` overwrites `rootDir` on every non-flag token,
so with two non-flag tokens the LAST one wins, contradicting the claim (and
the source's own comment `// First non-flag arg = root dir`).  With no
non-flag token the default `src` is kept, and flags may appear anywhere. -/
theorem C2_parse_args_last_nonflag_wins :
    parseArgs ["alpha", "beta"] = { rootDir := "beta", dryRun := false, force := false } ∧
    ({ rootDir := "beta", dryRun := false, force := false } : CliOptions).rootDir ≠ "alpha" ∧
    parseArgs ["alpha", "--force", "beta", "--dry-run"]
      = { rootDir := "beta", dryRun := true, force := true } ∧
    parseArgs ["--dry-run"] = { rootDir := "src", dryRun := true, force := false } := by
  refine ⟨rfl, ?_, rfl, rfl⟩; decide

/-- C3 counterexample: a `widget.tsx` containing only the
higher-order-component wrapping `export default memo(Foo);` does NOT fall
into the generic fallback (which would give importName `Widget`): the
bare-default regex of rule 2 matches and captures `memo`. -/
theorem C3_hoc_counterexample :
    (inferExportInfo ["src", "widget.tsx"] "export default memo(Foo);").importName = "memo" ∧
    (inferExportInfo ["src", "widget.tsx"] "export default memo(Foo);").importName ≠ "Widget" := by
  refine ⟨rfl, ?_⟩; decide

/-- C3 amended: file texts matching none of the four regexes (for example
re-exports and renamed exports) do fall into the generic fallback, but
`export default memo(Foo);` and `export default class Foo` both match the
bare-default regex (rule 2), yielding importName `memo` resp. `class` with a
default-style import — not the fallback name synthesized from the file's
base name. -/
theorem C3_amended_regex_fallback :
    (∀ (filePath : List String) (source : String),
      matchDefaultFunction source = none → matchBareDefault source = none →
      matchNamedFunction source = none → matchConstArrow source = none →
      (inferExportInfo filePath source).importName =
        (let b := basenameStrip (pathBasename filePath) (extname (pathBasename filePath))
         if b = "" then "ComponentUnderTest" else capitalizeJs b)) ∧
    (inferExportInfo ["src", "widget.tsx"] "export * from \"./other\";").importName
      = "Widget" ∧
    (inferExportInfo ["src", "widget.tsx"] "export \x7b Foo as Bar \x7d;").importName
      = "Widget" ∧
    (inferExportInfo ["src", "widget.tsx"] "export default memo(Foo);").importLine
      = "import memo from \"widget\";" ∧
    (inferExportInfo ["src", "widget.tsx"] "export default class Foo \x7b\x7d").importName
      = "class" := by
  refine ⟨?_, rfl, rfl, rfl, rfl⟩
  intro filePath source h1 h2 h3 h4
  rw [inferExportInfo_no_match filePath source h1 h2 h3 h4]

/-- C3 witness: the universal fallback part applied to a re-export file
`x/card.tsx`, whose text matches none of the four regexes. -/
theorem C3_amended_regex_fallback_witness :
    (inferExportInfo ["x", "card.tsx"] "export * from \"./y\";").importName = "Card" := by
  have h := C3_amended_regex_fallback.1 ["x", "card.tsx"] "export * from \"./y\";"
    rfl rfl rfl rfl
  exact h.trans (by rfl)

/-- C6: the four inference rules are tried in order with the first matching
rule winning: a file containing both `export default function Foo` and
`export const Bar = (` — in either textual order — gets importName `Foo`
from rule 1, not `Bar` from rule 4, whatever the file's path. -/
theorem C6_rule_priority (fp : List String) :
    (inferExportInfo fp
      "export default function Foo() \x7b return null; \x7d\nexport const Bar = () => null;").importName
      = "Foo" ∧
    (inferExportInfo fp
      "export const Bar = () => null;\nexport default function Foo() \x7b return null; \x7d").importName
      = "Foo" := by
  have h1 : matchDefaultFunction
      "export default function Foo() \x7b return null; \x7d\nexport const Bar = () => null;"
      = some "Foo" := by rfl
  have h2 : matchDefaultFunction
      "export const Bar = () => null;\nexport default function Foo() \x7b return null; \x7d"
      = some "Foo" := by rfl
  constructor
  · unfold inferExportInfo
    rw [h1]
  · unfold inferExportInfo
    rw [h2]

-- ---------------- Claim theorems: discovery ----------------

/-- C7: discovery never selects a file whose name ends with `.test.tsx` or
`.stories.tsx` or begins with a dot; it never descends into a directory
named `node_modules`, `dist`, `build`, or `.git`; and a remaining file is
selected iff its extension is in the fixed allow-list (only `.tsx`). -/
theorem C7_discovery_exclusions (pre : List String) (t : EntryList) :
    (∀ p ∈ walkList pre t, ∃ nm, p.getLast? = some nm ∧
        strEndsWith nm ".test.tsx" = false ∧
        strEndsWith nm ".stories.tsx" = false ∧
        strStartsWith nm "." = false ∧
        COMPONENT_EXTENSIONS.contains (extname nm) = true) ∧
    (∀ name r subs rest, name ∈ excludedDirs →
        walkList pre (EntryList.cons (Entry.dir name r subs) rest) = walkList pre rest) ∧
    (∀ n c, (pre ++ [n]) ∈ walkList pre (EntryList.cons (Entry.file n c) EntryList.nil) ↔
        (strEndsWith n ".test.tsx" = false ∧
         strEndsWith n ".stories.tsx" = false ∧
         strStartsWith n "." = false ∧
         COMPONENT_EXTENSIONS.contains (extname n) = true)) := by
  refine ⟨?_, ?_, ?_⟩
  · intro p hp
    induction pre, t using walkList.induct with
    | case1 pre => simp [walkList] at hp
    | case2 pre name content rest ih =>
      rw [walkList] at hp
      rcases List.mem_append.mp hp with h | h
      · split at h
        · simp at h
        · next hfilter =>
          split at h
          · next hext =>
            simp only [List.mem_singleton] at h
            subst h
            rw [Bool.not_eq_true, Bool.or_eq_false_iff, Bool.or_eq_false_iff] at hfilter
            exact ⟨name, List.getLast?_concat _, hfilter.1.1, hfilter.1.2, hfilter.2, hext⟩
          · simp at h
      · exact ih h
    | case3 pre name readable subs rest ih1 ih2 =>
      rw [walkList] at hp
      rcases List.mem_append.mp hp with h | h
      · split at h
        · simp at h
        · split at h
          · exact ih1 h
          · simp at h
      · exact ih2 h
  · intro name r subs rest hmem
    rw [walkList]
    have hc : excludedDirs.contains name = true := List.elem_eq_true_of_mem hmem
    simp only [hc, if_true]
    exact (List.nil_append _)
  · intro n c
    rw [walkList]
    cases h1 : strEndsWith n ".test.tsx" <;>
      cases h2 : strEndsWith n ".stories.tsx" <;>
        cases h3 : strStartsWith n "." <;>
          cases h4 : COMPONENT_EXTENSIONS.contains (extname n) <;>
            simp [walkList, h1, h2, h3, h4]

/-- C7 witness: concrete instances of all three parts — a selected file
satisfies every filter, an excluded directory contributes nothing, and an
eligible `.tsx` file is selected. -/
theorem C7_discovery_exclusions_witness :
    (∃ nm, (["Button.tsx"] : List String).getLast? = some nm ∧
        strEndsWith nm ".test.tsx" = false ∧
        strEndsWith nm ".stories.tsx" = false ∧
        strStartsWith nm "." = false ∧
        COMPONENT_EXTENSIONS.contains (extname nm) = true) ∧
    walkList [] (EntryList.cons
        (Entry.dir "dist" true (entryList [Entry.file "a.tsx" ""])) EntryList.nil)
      = walkList [] EntryList.nil ∧
    (([] : List String) ++ ["Button.tsx"]) ∈
      walkList [] (EntryList.cons (Entry.file "Button.tsx" "") EntryList.nil) := by
  refine ⟨?_, ?_, ?_⟩
  · exact (C7_discovery_exclusions []
      (EntryList.cons (Entry.file "Button.tsx" "") EntryList.nil)).1
      ["Button.tsx"] (by decide)
  · exact (C7_discovery_exclusions [] EntryList.nil).2.1 "dist" true
      (entryList [Entry.file "a.tsx" ""]) EntryList.nil (by decide)
  · exact ((C7_discovery_exclusions []
      (EntryList.cons (Entry.file "Button.tsx" "") EntryList.nil)).2.2 "Button.tsx" "").mpr
      (by decide)

/-- C9: an unreadable directory contributes zero files while the traversal
of its siblings continues, and an unreadable (or missing) root yields the
empty file list rather than a failure. -/
theorem C9_unreadable_dirs (pre : List String) (name : String)
    (subs rest root : EntryList) :
    walkList pre (EntryList.cons (Entry.dir name false subs) rest) = walkList pre rest ∧
    findComponentFiles false root = [] := by
  constructor
  · rw [walkList]
    cases h : excludedDirs.contains name <;> simp [h]
  · rfl

/-- C10: the leading-dot exclusion applies only to file names, not
directory names — a readable dot-directory not in the exclusion set (for
example `.next`) is descended into and `.tsx` files inside it are
selected. -/
theorem C10_dot_directories (pre : List String) (name : String)
    (subs rest : EntryList) (h : name ∉ excludedDirs) :
    walkList pre (EntryList.cons (Entry.dir name true subs) rest)
      = walkList (pre ++ [name]) subs ++ walkList pre rest ∧
    walkList [] (EntryList.cons
        (Entry.dir ".next" true (entryList [Entry.file "Page.tsx" ""])) EntryList.nil)
      = [[".next", "Page.tsx"]] := by
  constructor
  · have hc : excludedDirs.contains name = false := by
      cases hcc : excludedDirs.contains name
      · rfl
      · exact absurd (List.mem_of_elem_eq_true hcc) h
    rw [walkList]
    simp only [hc, Bool.false_eq_true, if_false, if_true]
  · rfl

/-- C10 witness: the general part applied to the dot-directory `.cache`. -/
theorem C10_dot_directories_witness :
    walkList [] (EntryList.cons
        (Entry.dir ".cache" true (entryList [Entry.file "A.tsx" ""])) EntryList.nil)
      = walkList ([] ++ [".cache"]) (entryList [Entry.file "A.tsx" ""])
          ++ walkList [] EntryList.nil :=
  (C10_dot_directories [] ".cache" (entryList [Entry.file "A.tsx" ""])
    EntryList.nil (by decide)).1

-- ---------------- Claim theorems: fallback naming ----------------

/-- C8: when none of the four rules matches, the synthesized importName is
the file's base name with its first character uppercased and the rest
unchanged (the fixed placeholder `ComponentUnderTest` for an empty base
name), and the result is treated as a default export: a default-style import
line and a self-closing tag using that name. -/
theorem C8_fallback_naming (filePath : List String) (source : String)
    (h1 : matchDefaultFunction source = none) (h2 : matchBareDefault source = none)
    (h3 : matchNamedFunction source = none) (h4 : matchConstArrow source = none) :
    inferExportInfo filePath source =
      (let b := basenameStrip (pathBasename filePath) (extname (pathBasename filePath))
       let nm := if b = "" then "ComponentUnderTest" else capitalizeJs b
       { importName := nm,
         importLine := "import " ++ nm ++ " from \"" ++ relativeImportOf filePath ++ "\";",
         jsxTag := "<" ++ nm ++ " />" }) :=
  inferExportInfo_no_match filePath source h1 h2 h3 h4

/-- C8 witness: the unrecognized file `src/widget.tsx` gets fallback name
`Widget` with a default-style import and self-closing tag. -/
theorem C8_fallback_naming_witness :
    inferExportInfo ["src", "widget.tsx"] "const y = 2;"
      = { importName := "Widget",
          importLine := "import Widget from \"widget\";",
          jsxTag := "<Widget />" } :=
  (C8_fallback_naming ["src", "widget.tsx"] "const y = 2;" rfl rfl rfl rfl).trans (by rfl)

-- ---------------- Write-effect lemmas ----------------

lemma writeInEntries_read (es : EntryList) (p : List String) (c : String) :
    ∀ es', writeInEntries es p c = some es' → readInEntries es' p = some c := by
  induction es, p, c using writeInEntries.induct with
  | case1 t x => intro es' hw; simp only [writeInEntries] at hw; exact Option.noConfusion hw
  | case2 n c => intro es' hw
                 simp only [writeInEntries, Option.some.injEq] at hw
                 subst hw
                 simp [readInEntries]
  | case3 a b tail x =>
    intro es' hw; simp only [writeInEntries] at hw; exact Option.noConfusion hw
  | case4 m c0 rest n c h =>
    intro es' hw
    simp only [writeInEntries, if_pos h, Option.some.injEq] at hw
    subst hw
    simp [readInEntries]
  | case5 m c0 rest n c h ih =>
    intro es' hw
    rw [Bool.not_eq_true] at h
    simp only [writeInEntries, h, Bool.false_eq_true, if_false] at hw
    obtain ⟨r', hr', rfl⟩ := Option.map_eq_some'.mp hw
    simp only [readInEntries, h, Bool.false_eq_true, if_false]
    exact ih r' hr'
  | case6 m r subs rest n c h =>
    intro es' hw
    simp only [writeInEntries, if_pos h] at hw
    exact Option.noConfusion hw
  | case7 m r subs rest n c h ih =>
    intro es' hw
    rw [Bool.not_eq_true] at h
    simp only [writeInEntries, h, Bool.false_eq_true, if_false] at hw
    obtain ⟨r', hr', rfl⟩ := Option.map_eq_some'.mp hw
    simp only [readInEntries, h, Bool.false_eq_true, if_false]
    exact ih r' hr'
  | case8 m c0 rest n hd tail c h =>
    intro es' hw
    simp only [writeInEntries, if_pos h] at hw
    exact Option.noConfusion hw
  | case9 m c0 rest n hd tail c h ih =>
    intro es' hw
    rw [Bool.not_eq_true] at h
    simp only [writeInEntries, h, Bool.false_eq_true, if_false] at hw
    obtain ⟨r', hr', rfl⟩ := Option.map_eq_some'.mp hw
    simp only [readInEntries]
    exact ih r' hr'
  | case10 m r subs rest n hd tail c h ih =>
    intro es' hw
    simp only [writeInEntries, if_pos h] at hw
    obtain ⟨subs', hs, rfl⟩ := Option.map_eq_some'.mp hw
    simp only [readInEntries, if_pos h]
    exact ih subs' hs
  | case11 m r subs rest n hd tail c h ih =>
    intro es' hw
    rw [Bool.not_eq_true] at h
    simp only [writeInEntries, h, Bool.false_eq_true, if_false] at hw
    obtain ⟨r', hr', rfl⟩ := Option.map_eq_some'.mp hw
    simp only [readInEntries, h, Bool.false_eq_true, if_false]
    exact ih r' hr'

lemma writeInEntries_exists (es : EntryList) (p : List String) (c : String) :
    ∀ es', writeInEntries es p c = some es' → existsInEntries es' p = true := by
  induction es, p, c using writeInEntries.induct with
  | case1 t x => intro es' hw; simp only [writeInEntries] at hw; exact Option.noConfusion hw
  | case2 n c =>
    intro es' hw
    simp only [writeInEntries, Option.some.injEq] at hw
    subst hw
    simp [existsInEntries, entryName]
  | case3 a b tail x =>
    intro es' hw; simp only [writeInEntries] at hw; exact Option.noConfusion hw
  | case4 m c0 rest n c h =>
    intro es' hw
    simp only [writeInEntries, if_pos h, Option.some.injEq] at hw
    subst hw
    simp [existsInEntries, entryName]
  | case5 m c0 rest n c h ih =>
    intro es' hw
    rw [Bool.not_eq_true] at h
    simp only [writeInEntries, h, Bool.false_eq_true, if_false] at hw
    obtain ⟨r', hr', rfl⟩ := Option.map_eq_some'.mp hw
    simp [existsInEntries, entryName, ih r' hr']
  | case6 m r subs rest n c h =>
    intro es' hw
    simp only [writeInEntries, if_pos h] at hw
    exact Option.noConfusion hw
  | case7 m r subs rest n c h ih =>
    intro es' hw
    rw [Bool.not_eq_true] at h
    simp only [writeInEntries, h, Bool.false_eq_true, if_false] at hw
    obtain ⟨r', hr', rfl⟩ := Option.map_eq_some'.mp hw
    simp [existsInEntries, entryName, ih r' hr']
  | case8 m c0 rest n hd tail c h =>
    intro es' hw
    simp only [writeInEntries, if_pos h] at hw
    exact Option.noConfusion hw
  | case9 m c0 rest n hd tail c h ih =>
    intro es' hw
    rw [Bool.not_eq_true] at h
    simp only [writeInEntries, h, Bool.false_eq_true, if_false] at hw
    obtain ⟨r', hr', rfl⟩ := Option.map_eq_some'.mp hw
    simp only [existsInEntries]
    exact ih r' hr'
  | case10 m r subs rest n hd tail c h ih =>
    intro es' hw
    simp only [writeInEntries, if_pos h] at hw
    obtain ⟨subs', hs, rfl⟩ := Option.map_eq_some'.mp hw
    simp [existsInEntries, h, ih subs' hs]
  | case11 m r subs rest n hd tail c h ih =>
    intro es' hw
    rw [Bool.not_eq_true] at h
    simp only [writeInEntries, h, Bool.false_eq_true, if_false] at hw
    obtain ⟨r', hr', rfl⟩ := Option.map_eq_some'.mp hw
    simp [existsInEntries, ih r' hr']

lemma writeInEntries_exists_mono (es : EntryList) (p : List String) (c : String) :
    ∀ es', writeInEntries es p c = some es' →
      ∀ q, existsInEntries es q = true → existsInEntries es' q = true := by
  induction es, p, c using writeInEntries.induct with
  | case1 t x => intro es' hw; simp only [writeInEntries] at hw; exact Option.noConfusion hw
  | case2 n c =>
    intro es' hw q hq
    simp only [existsInEntries] at hq
    exact absurd hq (by decide)
  | case3 a b tail x =>
    intro es' hw; simp only [writeInEntries] at hw; exact Option.noConfusion hw
  | case4 m c0 rest n c h =>
    intro es' hw q hq
    simp only [writeInEntries, if_pos h, Option.some.injEq] at hw
    subst hw
    have hmn : m = n := eq_of_beq h
    subst hmn
    rcases q with _ | ⟨q0, _ | ⟨q1, qs⟩⟩ <;>
      simp_all [existsInEntries, entryName]
  | case5 m c0 rest n c h ih =>
    intro es' hw q hq
    rw [Bool.not_eq_true] at h
    simp only [writeInEntries, h, Bool.false_eq_true, if_false] at hw
    obtain ⟨r', hr', rfl⟩ := Option.map_eq_some'.mp hw
    have ihq := ih r' hr'
    rcases q with _ | ⟨q0, _ | ⟨q1, qs⟩⟩
    · simp only [existsInEntries] at hq
      exact absurd hq (by decide)
    · simp only [existsInEntries, entryName, Bool.or_eq_true] at hq ⊢
      rcases hq with h0 | h0
      · exact Or.inl h0
      · exact Or.inr (ihq [q0] h0)
    · simp only [existsInEntries] at hq ⊢
      exact ihq (q0 :: q1 :: qs) hq
  | case6 m r subs rest n c h =>
    intro es' hw
    simp only [writeInEntries, if_pos h] at hw
    exact Option.noConfusion hw
  | case7 m r subs rest n c h ih =>
    intro es' hw q hq
    rw [Bool.not_eq_true] at h
    simp only [writeInEntries, h, Bool.false_eq_true, if_false] at hw
    obtain ⟨r', hr', rfl⟩ := Option.map_eq_some'.mp hw
    have ihq := ih r' hr'
    rcases q with _ | ⟨q0, _ | ⟨q1, qs⟩⟩
    · simp only [existsInEntries] at hq
      exact absurd hq (by decide)
    · simp only [existsInEntries, entryName, Bool.or_eq_true] at hq ⊢
      rcases hq with h0 | h0
      · exact Or.inl h0
      · exact Or.inr (ihq [q0] h0)
    · simp only [existsInEntries, Bool.or_eq_true] at hq ⊢
      rcases hq with h0 | h0
      · exact Or.inl h0
      · exact Or.inr (ihq (q0 :: q1 :: qs) h0)
  | case8 m c0 rest n hd tail c h =>
    intro es' hw
    simp only [writeInEntries, if_pos h] at hw
    exact Option.noConfusion hw
  | case9 m c0 rest n hd tail c h ih =>
    intro es' hw q hq
    rw [Bool.not_eq_true] at h
    simp only [writeInEntries, h, Bool.false_eq_true, if_false] at hw
    obtain ⟨r', hr', rfl⟩ := Option.map_eq_some'.mp hw
    have ihq := ih r' hr'
    rcases q with _ | ⟨q0, _ | ⟨q1, qs⟩⟩
    · simp only [existsInEntries] at hq
      exact absurd hq (by decide)
    · simp only [existsInEntries, entryName, Bool.or_eq_true] at hq ⊢
      rcases hq with h0 | h0
      · exact Or.inl h0
      · exact Or.inr (ihq [q0] h0)
    · simp only [existsInEntries] at hq ⊢
      exact ihq (q0 :: q1 :: qs) hq
  | case10 m r subs rest n hd tail c h ih =>
    intro es' hw q hq
    simp only [writeInEntries, if_pos h] at hw
    obtain ⟨subs', hs, rfl⟩ := Option.map_eq_some'.mp hw
    have ihq := ih subs' hs
    rcases q with _ | ⟨q0, _ | ⟨q1, qs⟩⟩
    · simp only [existsInEntries] at hq
      exact absurd hq (by decide)
    · simpa [existsInEntries, entryName] using hq
    · simp only [existsInEntries, Bool.or_eq_true, Bool.and_eq_true] at hq ⊢
      rcases hq with ⟨h0, h1⟩ | h0
      · exact Or.inl ⟨h0, ihq (q1 :: qs) h1⟩
      · exact Or.inr h0
  | case11 m r subs rest n hd tail c h ih =>
    intro es' hw q hq
    rw [Bool.not_eq_true] at h
    simp only [writeInEntries, h, Bool.false_eq_true, if_false] at hw
    obtain ⟨r', hr', rfl⟩ := Option.map_eq_some'.mp hw
    have ihq := ih r' hr'
    rcases q with _ | ⟨q0, _ | ⟨q1, qs⟩⟩
    · simp only [existsInEntries] at hq
      exact absurd hq (by decide)
    · simp only [existsInEntries, entryName, Bool.or_eq_true] at hq ⊢
      rcases hq with h0 | h0
      · exact Or.inl h0
      · exact Or.inr (ihq [q0] h0)
    · simp only [existsInEntries, Bool.or_eq_true] at hq ⊢
      rcases hq with h0 | h0
      · exact Or.inl h0
      · exact Or.inr (ihq (q0 :: q1 :: qs) h0)

lemma writeInEntries_walk (es : EntryList) (p : List String) (c : String) :
    ∀ es', writeInEntries es p c = some es' →
      strEndsWith (p.getLast?.getD "") ".test.tsx" = true →
      ∀ pre, walkList pre es' = walkList pre es := by
  induction es, p, c using writeInEntries.induct with
  | case1 t x => intro es' hw; simp only [writeInEntries] at hw; exact Option.noConfusion hw
  | case2 n c =>
    intro es' hw htest pre
    simp only [writeInEntries, Option.some.injEq] at hw
    subst hw
    simp only [List.getLast?_singleton, Option.getD_some] at htest
    simp [walkList, htest]
  | case3 a b tail x =>
    intro es' hw; simp only [writeInEntries] at hw; exact Option.noConfusion hw
  | case4 m c0 rest n c h =>
    intro es' hw htest pre
    simp only [writeInEntries, if_pos h, Option.some.injEq] at hw
    subst hw
    have hmn : m = n := eq_of_beq h
    subst hmn
    rw [walkList, walkList]
  | case5 m c0 rest n c h ih =>
    intro es' hw htest pre
    rw [Bool.not_eq_true] at h
    simp only [writeInEntries, h, Bool.false_eq_true, if_false] at hw
    obtain ⟨r', hr', rfl⟩ := Option.map_eq_some'.mp hw
    rw [walkList, walkList, ih r' hr' htest pre]
  | case6 m r subs rest n c h =>
    intro es' hw
    simp only [writeInEntries, if_pos h] at hw
    exact Option.noConfusion hw
  | case7 m r subs rest n c h ih =>
    intro es' hw htest pre
    rw [Bool.not_eq_true] at h
    simp only [writeInEntries, h, Bool.false_eq_true, if_false] at hw
    obtain ⟨r', hr', rfl⟩ := Option.map_eq_some'.mp hw
    rw [walkList, walkList, ih r' hr' htest pre]
  | case8 m c0 rest n hd tail c h =>
    intro es' hw
    simp only [writeInEntries, if_pos h] at hw
    exact Option.noConfusion hw
  | case9 m c0 rest n hd tail c h ih =>
    intro es' hw htest pre
    rw [Bool.not_eq_true] at h
    simp only [writeInEntries, h, Bool.false_eq_true, if_false] at hw
    obtain ⟨r', hr', rfl⟩ := Option.map_eq_some'.mp hw
    rw [walkList, walkList, ih r' hr' htest pre]
  | case10 m r subs rest n hd tail c h ih =>
    intro es' hw htest pre
    simp only [writeInEntries, if_pos h] at hw
    obtain ⟨subs', hs, rfl⟩ := Option.map_eq_some'.mp hw
    rw [List.getLast?_cons_cons] at htest
    have hsub := ih subs' hs htest
    rw [walkList, walkList]
    congr 1
    split
    · rfl
    · split
      · exact hsub _
      · rfl
  | case11 m r subs rest n hd tail c h ih =>
    intro es' hw htest pre
    rw [Bool.not_eq_true] at h
    simp only [writeInEntries, h, Bool.false_eq_true, if_false] at hw
    obtain ⟨r', hr', rfl⟩ := Option.map_eq_some'.mp hw
    rw [walkList, walkList, ih r' hr' htest pre]

-- ---------------- Orchestration lemmas ----------------

lemma processOne_dryRun_eq (force : Bool) (t : EntryList) (f : List String)
    (t' : EntryList) (h : processOne force true t f = some t') : t' = t := by
  unfold processOne at h
  dsimp only at h
  by_cases hex : (existsInEntries t (getTestPath f) && !force) = true
  · rw [if_pos hex] at h
    exact (Option.some_inj.mp h).symm
  · rw [if_neg hex] at h
    cases hr : readInEntries t f with
    | none => rw [hr] at h; exact Option.noConfusion h
    | some src =>
      rw [hr] at h
      dsimp only at h
      exact (Option.some_inj.mp h).symm

lemma runFiles_dryRun_eq (force : Bool) :
    ∀ (files : List (List String)) (t t' : EntryList),
      runFiles force true t files = some t' → t' = t := by
  intro files
  induction files with
  | nil =>
    intro t t' h
    unfold runFiles at h
    exact (Option.some_inj.mp h).symm
  | cons f fs ih =>
    intro t t' h
    unfold runFiles at h
    cases hp : processOne force true t f with
    | none => rw [hp] at h; exact Option.noConfusion h
    | some t1 =>
      rw [hp] at h
      rw [ih t1 t' h, processOne_dryRun_eq force t f t1 hp]

lemma processOne_run (t : EntryList) (f : List String) (t' : EntryList)
    (h : processOne false false t f = some t') :
    (∀ pre, walkList pre t' = walkList pre t) ∧
    (∀ q, existsInEntries t q = true → existsInEntries t' q = true) ∧
    existsInEntries t' (getTestPath f) = true := by
  unfold processOne at h
  simp only [Bool.not_false, Bool.and_true] at h
  by_cases hex : existsInEntries t (getTestPath f) = true
  · rw [if_pos hex] at h
    obtain rfl := Option.some_inj.mp h
    exact ⟨fun _ => rfl, fun _ hq => hq, hex⟩
  · rw [if_neg hex] at h
    cases hr : readInEntries t f with
    | none => rw [hr] at h; exact Option.noConfusion h
    | some src =>
      rw [hr] at h
      simp only [Bool.false_eq_true, if_false] at h
      have hlast : strEndsWith ((getTestPath f).getLast?.getD "") ".test.tsx" = true := by
        rw [getTestPath_getLast]
        exact strEndsWith_append _ _
      exact ⟨writeInEntries_walk _ _ _ _ h hlast,
        writeInEntries_exists_mono _ _ _ _ h,
        writeInEntries_exists _ _ _ _ h⟩

lemma runFiles_run :
    ∀ (files : List (List String)) (t t' : EntryList),
      runFiles false false t files = some t' →
      (∀ pre, walkList pre t' = walkList pre t) ∧
      (∀ q, existsInEntries t q = true → existsInEntries t' q = true) ∧
      (∀ f ∈ files, existsInEntries t' (getTestPath f) = true) := by
  intro files
  induction files with
  | nil =>
    intro t t' h
    unfold runFiles at h
    obtain rfl := Option.some_inj.mp h
    exact ⟨fun _ => rfl, fun _ hq => hq, fun f hf => absurd hf (List.not_mem_nil f)⟩
  | cons f fs ih =>
    intro t t' h
    unfold runFiles at h
    cases hp : processOne false false t f with
    | none => rw [hp] at h; exact Option.noConfusion h
    | some t1 =>
      rw [hp] at h
      obtain ⟨w1, m1, e1⟩ := processOne_run t f t1 hp
      obtain ⟨w2, m2, e2⟩ := ih t1 t' h
      refine ⟨fun pre => (w2 pre).trans (w1 pre), fun q hq => m2 q (m1 q hq), ?_⟩
      intro g hg
      rcases List.mem_cons.mp hg with rfl | hg'
      · exact m2 _ e1
      · exact e2 g hg'

lemma runFiles_skips :
    ∀ (files : List (List String)) (t : EntryList),
      (∀ f ∈ files, existsInEntries t (getTestPath f) = true) →
      runFiles false false t files = some t := by
  intro files
  induction files with
  | nil => intro t _; rfl
  | cons f fs ih =>
    intro t hall
    unfold runFiles
    have hskip : processOne false false t f = some t := by
      unfold processOne
      simp only [Bool.not_false, Bool.and_true]
      rw [if_pos (hall f (List.mem_cons_self f fs))]
    rw [hskip]
    exact ih t (fun g hg => hall g (List.mem_cons_of_mem f hg))

-- ---------------- Claim theorems: write policy and idempotence ----------------

/-- C4: when the derived test path exists and `force` is unset the file
system is returned unchanged (the existing test is untouched); when `force`
is set (and not a dry run) the test path afterwards holds exactly the newly
generated content; and a dry run never changes the file system, whatever
else happens during the run. -/
theorem C4_write_policy (force dryRun : Bool) (tree : EntryList) (file : List String) :
    (existsInEntries tree (getTestPath file) = true → force = false →
      processOne force dryRun tree file = some tree) ∧
    (∀ source tree1, force = true → dryRun = false →
      readInEntries tree file = some source →
      writeInEntries tree (getTestPath file)
        (createTestTemplate file (inferExportInfo file source)) = some tree1 →
      processOne force dryRun tree file = some tree1 ∧
      readInEntries tree1 (getTestPath file) =
        some (createTestTemplate file (inferExportInfo file source))) ∧
    (∀ files tree2, dryRun = true →
      runFiles force dryRun tree files = some tree2 → tree2 = tree) := by
  refine ⟨?_, ?_, ?_⟩
  · intro hex hf
    subst hf
    unfold processOne
    dsimp only
    rw [if_pos (by simp [hex])]
  · intro source tree1 hf hd hr hw
    subst hf hd
    constructor
    · unfold processOne
      dsimp only
      rw [if_neg (by simp), hr]
      dsimp only
      exact hw
    · exact writeInEntries_read _ _ _ _ hw
  · intro files tree2 hd hrun
    subst hd
    exact runFiles_dryRun_eq force files tree tree2 hrun

/-- C4 witness: concrete instances of all three parts on a two-entry root
(`a.tsx` plus an existing `a.test.tsx`). -/
theorem C4_write_policy_witness :
    processOne false false
        (entryList [Entry.file "a.tsx" "let x = 1;", Entry.file "a.test.tsx" "old"]) ["a.tsx"]
      = some (entryList [Entry.file "a.tsx" "let x = 1;", Entry.file "a.test.tsx" "old"]) ∧
    (processOne true false
        (entryList [Entry.file "a.tsx" "let x = 1;", Entry.file "a.test.tsx" "old"]) ["a.tsx"]
      = some (entryList [Entry.file "a.tsx" "let x = 1;",
          Entry.file "a.test.tsx"
            (createTestTemplate ["a.tsx"] (inferExportInfo ["a.tsx"] "let x = 1;"))]) ∧
     readInEntries
        (entryList [Entry.file "a.tsx" "let x = 1;",
          Entry.file "a.test.tsx"
            (createTestTemplate ["a.tsx"] (inferExportInfo ["a.tsx"] "let x = 1;"))])
        ["a.test.tsx"]
      = some (createTestTemplate ["a.tsx"] (inferExportInfo ["a.tsx"] "let x = 1;"))) ∧
    ((entryList [Entry.file "a.tsx" "let x = 1;"])
      = entryList [Entry.file "a.tsx" "let x = 1;"]) := by
  refine ⟨?_, ?_, rfl⟩
  · exact (C4_write_policy false false
      (entryList [Entry.file "a.tsx" "let x = 1;", Entry.file "a.test.tsx" "old"])
      ["a.tsx"]).1 (by rfl) rfl
  · have h := (C4_write_policy true false
      (entryList [Entry.file "a.tsx" "let x = 1;", Entry.file "a.test.tsx" "old"])
      ["a.tsx"]).2.1 "let x = 1;"
      (entryList [Entry.file "a.tsx" "let x = 1;",
        Entry.file "a.test.tsx"
          (createTestTemplate ["a.tsx"] (inferExportInfo ["a.tsx"] "let x = 1;"))])
      rfl rfl (by rfl) (by rfl)
    exact h

/-- C5: running the whole tool twice in succession on the same root without
`--force` (and not in dry-run mode) is idempotent — whenever the first run
completes, a second run over its resulting file system returns it
unchanged, because every generated test file already exists at its derived
path and generated `*.test.tsx` files are excluded from discovery. -/
theorem C5_idempotent (rootReadable : Bool) (tree tree1 : EntryList)
    (h : runMain false false rootReadable tree = some tree1) :
    runMain false false rootReadable tree1 = some tree1 := by
  unfold runMain at h ⊢
  obtain ⟨hwalk, _, hex⟩ := runFiles_run _ _ _ h
  have hfiles : findComponentFiles rootReadable tree1 = findComponentFiles rootReadable tree := by
    unfold findComponentFiles
    cases rootReadable
    · rfl
    · simp only [if_true]
      exact hwalk []
  rw [hfiles]
  exact runFiles_skips _ _ hex

/-- C5 witness: a first run over a root holding only `a.tsx` writes
`a.test.tsx`; a second run over the resulting tree changes nothing. -/
theorem C5_idempotent_witness :
    runMain false false true
        (entryList [Entry.file "a.tsx" "let x = 1;",
          Entry.file "a.test.tsx"
            (createTestTemplate ["a.tsx"] (inferExportInfo ["a.tsx"] "let x = 1;"))])
      = some (entryList [Entry.file "a.tsx" "let x = 1;",
          Entry.file "a.test.tsx"
            (createTestTemplate ["a.tsx"] (inferExportInfo ["a.tsx"] "let x = 1;"))]) :=
  C5_idempotent true (entryList [Entry.file "a.tsx" "let x = 1;"]) _ (by rfl)
